import Mathlib

/-!
# Verification of the calendar-time-analysis core

A shallow embedding of `src/calendar-time-analysis.py` (a command-line tool that
expands recurring calendar events, reconciles them with per-instance override
records, classifies occurrences by title and aggregates durations per category),
together with proofs and refutations of the specification's claims about it.

Modelling conventions:
* An aware Python `datetime` is a `DT`: an absolute instant `utc` in seconds, a
  fixed zone `offset` in seconds east of UTC, and an inert zone label `tzid`
  (so that "different but equivalent offset" zone objects are representable).
  Python compares aware datetimes by instant, so datetime equality is `utc`
  equality; `d.date()` is the floor-division of the local clock by 86400.
* Durations (`timedelta`) are integer seconds; `dtend - dtstart` is the
  difference of the `utc` fields.
* Python strings are Lean `String`s; slicing, `str.lower`, and the
  alphanumeric filter are given explicit `List Char` based definitions below.
* The recurrence-rule library (`dateutil.rrulestr`) is an external
  collaborator: a rule either fails to parse (the library raises) or yields a
  finite list of instants.  It is modelled by the `RuleText` inductive; the
  control flow around it (which is what the error-handling claims are about)
  is translated from the script itself.
-/

namespace CTA

/-- An aware timestamp: absolute instant (seconds), fixed UTC offset (seconds),
and a zone label that never influences arithmetic or comparison — exactly like
the `tzinfo` attached to the datetimes the script manipulates. -/
structure DT where
  utc : Int
  offset : Int
  tzid : String
  deriving DecidableEq, Repr

/-- `d.date()` of an aware datetime: the calendar day of the *local* clock
reading, as a day number (floor of local seconds / 86400). -/
def localDate (d : DT) : Int := (d.utc + d.offset).fdiv 86400

/-- `d.astimezone(UTC).date()`: the calendar day of the UTC clock reading. -/
def utcDate (d : DT) : Int := d.utc.fdiv 86400

/-- `e.replace(tzinfo = base.tzinfo)` (source line 132): keep the wall-clock
reading, swap the zone; the represented instant moves unless the two offsets
are equal. -/
def tzReplace (e : DT) (base : DT) : DT :=
  { utc := e.utc + e.offset - base.offset, offset := base.offset, tzid := base.tzid }

/-! ## The category regular expression (source line 28)

`^(\[[A-Z-a-z-0-9-+_\\\/\|]*\])|([A-Z-a-z-0-9-+_\\\/\|]{1,7} - )`

Python parses the character class as: the ranges `A`-`Z`, `a`-`z`, `0`-`9` and
the literals `-`, `+`, `_`, `\`, `/`, `|`.  `re.match` anchors at position 0
and tries the bracket alternative first; each alternative is embedded with its
backtracking behaviour (greedy repetition, longest attempt first). -/

/-- Membership in the regex character class `[A-Z-a-z-0-9-+_\\\/\|]`. -/
def classChar (c : Char) : Bool :=
  c.isAlpha || c.isDigit || c == '-' || c == '+' || c == '_' || c == '\\' || c == '/' || c == '|'

/-- Greedy matching of `[class]*\]` against `rest`, trying run length `k`
first and backtracking to shorter runs; returns the run inside the brackets. -/
def bracketRun (rest : List Char) : Nat → Option (List Char)
  | 0 => if rest.head? == some ']' then some [] else none
  | k + 1 =>
    if (rest.take (k + 1)).all classChar && ((rest.drop (k + 1)).head? == some ']') then
      some (rest.take (k + 1))
    else bracketRun rest k

/-- First regex alternative `\[[class]*\]` at position 0; yields the whole
matched text `m[0]`. -/
def bracketAlt (cs : List Char) : Option (List Char) :=
  match cs with
  | '[' :: rest => (bracketRun rest rest.length).map (fun run => '[' :: (run ++ [']']))
  | _ => none

/-- Greedy matching of `[class]{1,7} - ` trying run length `k` first and
backtracking down to 1; yields the whole matched text `m[0]`. -/
def dashRun (cs : List Char) : Nat → Option (List Char)
  | 0 => none
  | k + 1 =>
    if (cs.take (k + 1)).all classChar then
      match cs.drop (k + 1) with
      | ' ' :: '-' :: ' ' :: _ => some (cs.take (k + 1) ++ [' ', '-', ' '])
      | _ => dashRun cs k
    else dashRun cs k

/-- Second regex alternative `[class]{1,7} - ` at position 0. -/
def dashAlt (cs : List Char) : Option (List Char) := dashRun cs (min 7 cs.length)

/-- `category_pattern.match(summary)`, returning `m[0]` when the anchored
match succeeds. -/
def categoryMatch (s : String) : Option String :=
  match bracketAlt s.data with
  | some m => some (String.mk m)
  | none => (dashAlt s.data).map String.mk

/-! ## Python string primitives used by `add_event` -/

/-- `s[:n]` — truncation to the first `n` characters. -/
def pyTake (s : String) (n : Nat) : String := String.mk (s.data.take n)

/-- `str.lower` on one character.  Python's `lower` is Unicode-aware, but every
string the script lowercases is built from the ASCII-only regex character
class or is the ASCII sentinel `'_Uncategorized_'`, so the ASCII table is the
faithful embedding on all reachable inputs. -/
def pyLowerChar (c : Char) : Char :=
  match c with
  | 'A' => 'a' | 'B' => 'b' | 'C' => 'c' | 'D' => 'd' | 'E' => 'e' | 'F' => 'f'
  | 'G' => 'g' | 'H' => 'h' | 'I' => 'i' | 'J' => 'j' | 'K' => 'k' | 'L' => 'l'
  | 'M' => 'm' | 'N' => 'n' | 'O' => 'o' | 'P' => 'p' | 'Q' => 'q' | 'R' => 'r'
  | 'S' => 's' | 'T' => 't' | 'U' => 'u' | 'V' => 'v' | 'W' => 'w' | 'X' => 'x'
  | 'Y' => 'y' | 'Z' => 'z'
  | c => c

/-- `s.lower()`. -/
def pyLower (s : String) : String := String.mk (s.data.map pyLowerChar)

/-- `''.join(l for l in s if l.isalnum())` (source line 80).  The filtered
string is always `m[0]` of the category regex, whose characters are ASCII, so
Lean's ASCII `Char.isAlphanum` agrees with Python's `str.isalnum` there. -/
def pyFilterAlnum (s : String) : String := String.mk (s.data.filter Char.isAlphanum)

/-! ## The duration aggregator (source lines 52-95) -/

/-- `CATEGORY_IGNORED = '_Uncategorized_'` (source line 52). -/
def CATEGORY_IGNORED : String := "_Uncategorized_"

/-- The requested date window (`args.dstart`, `args.dend`), as day numbers. -/
structure Config where
  dstart : Int
  dend : Int
  deriving DecidableEq, Repr

/-- The `Event` data class (source lines 60-68).  The two derived ISO-calendar
display fields (`year`, `week`) are stored by the script but never read by any
behaviour under verification, so they are not carried here. -/
structure Ev where
  dtstart : DT
  duration : Int
  summary : String
  category : String
  deriving DecidableEq, Repr

/-- One value of `event_dict`: `[total_duration_of_category, [events]]`. -/
structure Bucket where
  total : Int
  events : List Ev
  deriving DecidableEq, Repr

/-- The module-level aggregation state: `event_dict` (a Python dict, i.e. an
insertion-ordered association list with unique keys) and `total_duration`. -/
structure AggState where
  buckets : List (String × Bucket)
  totalDuration : Int
  deriving DecidableEq, Repr

def emptyState : AggState := ⟨[], 0⟩

/-- `event_dict[category][0] += duration; event_dict[category][1].append(ev)`:
update the (unique) binding of `k`. -/
def updateAssoc : List (String × Bucket) → String → Int → Ev → List (String × Bucket)
  | [], _, _, _ => []
  | (k', b) :: rest, k, d, ev =>
    if k' = k then (k', ⟨b.total + d, b.events ++ [ev]⟩) :: rest
    else (k', b) :: updateAssoc rest k d ev

/-- The category a summary is classified into before case folding: the
alphanumeric characters of `m[0]` when the pattern matches the (truncated)
title, the sentinel otherwise (source lines 74-80). -/
def classifiedCat (summary0 : String) : String :=
  match categoryMatch (pyTake summary0 200) with
  | some m => pyFilterAlnum m
  | none => CATEGORY_IGNORED

/-- The case-insensitive folding loop (source lines 86-90): scan the existing
bucket keys in insertion order and reuse the first one whose lowercasing
matches; otherwise keep the incoming category. -/
def chooseCategory (bs : List (String × Bucket)) (c : String) : String :=
  match bs.find? (fun p => pyLower p.1 == pyLower c) with
  | some p => p.1
  | none => c

/-- Bucket insertion (source lines 91-95): extend the existing binding, or
append a fresh one at the end (Python dicts preserve insertion order). -/
def insertEvent (bs : List (String × Bucket)) (category : String) (d : Int)
    (ev : Ev) : List (String × Bucket) :=
  if bs.any (fun p => p.1 == category) then updateAssoc bs category d ev
  else bs ++ [(category, ⟨d, [ev]⟩)]

/-- `add_event(dtstart, duration, summary)` (source lines 70-95): truncate the
title, keep only occurrences whose own-zone date lies in the inclusive window,
add pattern-matching occurrences' durations to the grand total, classify
(`classifiedCat`), fold the category case-insensitively onto the first
matching existing key, and insert. -/
def add_event (cfg : Config) (st : AggState) (dtstart : DT) (duration : Int)
    (summary0 : String) : AggState :=
  let summary := pyTake summary0 200
  if cfg.dstart ≤ localDate dtstart ∧ localDate dtstart ≤ cfg.dend then
    let total' := if (categoryMatch summary).isSome then st.totalDuration + duration
                  else st.totalDuration
    let category := chooseCategory st.buckets (classifiedCat summary0)
    { buckets := insertEvent st.buckets category duration ⟨dtstart, duration, summary, category⟩,
      totalDuration := total' }
  else st

/-- Feed a list of resolved occurrences to `add_event`, starting from the
fresh module state. -/
def runInserts (cfg : Config) (items : List (DT × Int × String)) : AggState :=
  items.foldl (fun st it => add_event cfg st it.1 it.2.1 it.2.2) emptyState

/-- The bucket keys, in insertion order. -/
def keysOf (bs : List (String × Bucket)) : List String := bs.map Prod.fst

/-- Total number of stored events across all buckets. -/
def numEvents (st : AggState) : Nat :=
  (st.buckets.map (fun p => p.2.events.length)).sum

/-- Sum of the per-bucket totals over every bucket other than the
uncategorized sentinel bucket. -/
def sumNonIgnored (bs : List (String × Bucket)) : Int :=
  ((bs.filter (fun p => !(p.1 == CATEGORY_IGNORED))).map (fun p => p.2.total)).sum

/-- The total of the (first) bucket keyed `k`, `0` when absent. -/
def lookupTotal (bs : List (String × Bucket)) (k : String) : Int :=
  match bs.find? (fun p => p.1 == k) with
  | some p => p.2.total
  | none => 0

/-! ## The override reconciler (source lines 105-107 and 133-154) -/

/-- One entry of `recurrence_list`: a VEVENT carrying a `RECURRENCE-ID`
marker.  `summary` is `None`-able because the matching branch falls back to
the series title when the override has no (or a falsy empty) `SUMMARY`. -/
structure Override where
  uid : String
  recurrenceId : DT
  dtstart : DT
  dtend : DT
  summary : Option String
  deriving DecidableEq, Repr

/-- The fields of the series component the reconciler reads. -/
structure Series where
  uid : String
  dtstart : DT
  dtend : DT
  summary : String
  deriving DecidableEq, Repr

/-- `recur == dte` (source line 139) after both sides were `astimezone`d to
UTC: aware-datetime equality, i.e. equality of instants. -/
def exactMatchB (g : DT) (e : Override) : Bool := g.utc == e.recurrenceId.utc

/-- `recur.date() == dte.date()` (source line 141): equality of the
reference-zone (UTC) calendar dates. -/
def dateMatchB (g : DT) (e : Override) : Bool := utcDate g == utcDate e.recurrenceId

/-- The condition under which the scan at source lines 135-145 accepts
candidate `e` for instant `g`: same series UID, and an exact instant match or
a date-level match. -/
def matchesB (uid : String) (g : DT) (e : Override) : Bool :=
  e.uid == uid && (exactMatchB g e || dateMatchB g e)

/-- The scan over `recurrence_list.copy()` together with
`recurrence_list.remove(e)`: return the first accepted candidate and the pool
with that candidate removed.  (Python's `remove` deletes the first list entry
*equal* to `e`; an earlier equal entry would itself have been accepted first,
so the deleted entry is the accepted one.) -/
def findMatch (uid : String) (g : DT) : List Override → Option (Override × List Override)
  | [] => none
  | e :: rest =>
    if matchesB uid g e then some (e, rest)
    else match findMatch uid g rest with
         | some (f, r) => some (f, e :: r)
         | none => none

/-- The `(dtstart, duration, summary)` triple that one iteration of the
matching loop passes to `add_event`. -/
structure Resolved where
  start : DT
  duration : Int
  summary : String
  deriving DecidableEq, Repr

/-- `e.get('SUMMARY')` truthiness (source line 147): an absent or empty
summary falls back to the series default. -/
def effSummary (e : Override) (dflt : String) : String :=
  match e.summary with
  | some s => if s.isEmpty then dflt else s
  | none => dflt

/-- The occurrence built from a matched override (source lines 146-150):
the override's own start, its `DTEND - DTSTART`, its summary or the default. -/
def ofOverride (s : Series) (e : Override) : Resolved :=
  ⟨e.dtstart, e.dtend.utc - e.dtstart.utc, effSummary e s.summary⟩

/-- The occurrence built when no candidate matches (source line 154): the
generated instant, the series' nominal `dtend - dtstart`, the default title. -/
def plainOcc (s : Series) (g : DT) : Resolved :=
  ⟨g, s.dtend.utc - s.dtstart.utc, s.summary⟩

/-- Everything one reconciliation of a series produces: the resolved
occurrences in instant order, the remaining pool, the consumed override
records in match order, and the number of `relaxed matching` log records. -/
structure ReconcileResult where
  resolved : List Resolved
  pool : List Override
  consumed : List Override
  relaxedCount : Nat
  deriving DecidableEq, Repr

/-- The matching loop (source lines 133-154): for each generated instant,
scan the shared pool in order; consume the first candidate matching exactly
or by reference-zone date (logging `relaxed matching` exactly when the date
comparison at line 141 holds for the consumed candidate), else synthesize a
plain occurrence. -/
def reconcile (s : Series) : List Override → List DT → ReconcileResult
  | pool, [] => ⟨[], pool, [], 0⟩
  | pool, g :: gs =>
    match findMatch s.uid g pool with
    | some (e, rest) =>
      let r := reconcile s rest gs
      ⟨ofOverride s e :: r.resolved, r.pool, e :: r.consumed,
        (if dateMatchB g e then 1 else 0) + r.relaxedCount⟩
    | none =>
      let r := reconcile s pool gs
      ⟨plainOcc s g :: r.resolved, r.pool, r.consumed, r.relaxedCount⟩

/-! ## The recurrence expander (source lines 125-133) -/

/-- `rruleset` with one `rrule` and the `EXDATE` entries (source lines
127-133): every exclusion is first re-tagged with the series start's zone
keeping its wall-clock reading (`tzReplace`, the line-131 bugfix), then any
generated instant equal — as an instant, the aware-datetime comparison
`rruleset` uses — to an exclusion is dropped. -/
def expandSeries (gen : List DT) (exdates : List DT) (seriesStart : DT) : List DT :=
  let exs := exdates.map (fun e => tzReplace e seriesStart)
  gen.filter (fun g => !(exs.any (fun x => x.utc == g.utc)))

/-! ## The whole run (source lines 105-155) -/

/-- The recurrence-rule text handed to `dateutil.rrulestr`.  The library is an
external collaborator: the rule text is opaque to the core beyond either
raising a parse error or producing the finite instant sequence, so it is
modelled as exactly that alternative. -/
inductive RuleText where
  | malformed (txt : String)
  | wellFormed (occs : List DT)
  deriving DecidableEq, Repr

/-- A non-override VEVENT of the feed (the script skips date-only events
upstream of everything modelled here, so `dtstart` always has a time). -/
structure Component where
  uid : String
  summary : String
  dtstart : DT
  dtend : DT
  rrule : Option RuleText
  exdates : List DT
  deriving DecidableEq, Repr

def isMalformed (c : Component) : Bool :=
  match c.rrule with
  | some (.malformed _) => true
  | _ => false

def seriesOf (c : Component) : Series := ⟨c.uid, c.dtstart, c.dtend, c.summary⟩

/-- Processing of one non-override VEVENT (source lines 109-154): plain events
go straight to `add_event`; a recurring event parses its rule — an unparsable
rule raises, and the script has no handler anywhere, so the error propagates —
then expands, reconciles against the shared pool and feeds every resolved
occurrence to `add_event`. -/
def processComponent (cfg : Config) (pool : List Override) (st : AggState)
    (c : Component) : Except String (List Override × AggState) :=
  match c.rrule with
  | none => .ok (pool, add_event cfg st c.dtstart (c.dtend.utc - c.dtstart.utc) c.summary)
  | some (.malformed txt) => .error txt
  | some (.wellFormed occs) =>
    let gens := expandSeries occs c.exdates c.dtstart
    let r := reconcile (seriesOf c) pool gens
    .ok (r.pool, r.resolved.foldl (fun acc o => add_event cfg acc o.start o.duration o.summary) st)

/-- The main loop over the calendar's non-override VEVENTs, threading the
shared override pool and the aggregation state; an uncaught rule-parse error
aborts everything that remains and no report is produced. -/
def runAll (cfg : Config) : List Component → List Override → AggState →
    Except String (List Override × AggState)
  | [], pool, st => .ok (pool, st)
  | c :: cs, pool, st =>
    match processComponent cfg pool st c with
    | .error msg => .error msg
    | .ok (p', st') => runAll cfg cs p' st'

/-- The override pool left over by a completed run, `none` when the run died. -/
def poolAfter (r : Except String (List Override × AggState)) : Option (List Override) :=
  r.toOption.map Prod.fst

/-- The bucket keys of a completed run's report, `none` when the run died. -/
def reportKeys (r : Except String (List Override × AggState)) : Option (List String) :=
  r.toOption.map (fun p => keysOf p.2.buckets)

/-- The uncaught error a run died with, `none` when it completed. -/
def errAfter (r : Except String (List Override × AggState)) : Option String :=
  match r with
  | .error msg => some msg
  | .ok _ => none

/-! ## The aggregation-state invariant

Every bucket key ever created is either the sentinel or a string of
alphanumeric characters (the output of `pyFilterAlnum`), and the grand total
equals the summed totals of the non-sentinel buckets. -/

def StateInv (st : AggState) : Prop :=
  (∀ k ∈ keysOf st.buckets, k = CATEGORY_IGNORED ∨ k.data.all Char.isAlphanum = true) ∧
  sumNonIgnored st.buckets = st.totalDuration

/-! ## Concrete fixtures used by witnesses and counterexamples -/

/-- A one-day window: day number 0 on both ends. -/
def cfg0 : Config := ⟨0, 0⟩

/-- 01:00 UTC inside the `cfg0` window. -/
def dt0 : DT := ⟨3600, 0, "UTC"⟩

/-- A generated series instant. -/
def g0 : DT := ⟨1000000, 0, "UTC"⟩

/-- A series with UID `s` and a one-hour nominal duration. -/
def s0 : Series := ⟨"s", ⟨0, 3600, "Berlin"⟩, ⟨3600, 3600, "Berlin"⟩, "Weekly"⟩

/-- An override of series `s` whose recurrence instant is 60 s away from `g0`:
it matches `g0` by UTC date only, never exactly. -/
def e1 : Override :=
  ⟨"s", ⟨1000060, 0, "UTC"⟩, ⟨2000000, 0, "UTC"⟩, ⟨2003600, 0, "UTC"⟩, some "moved"⟩

/-- An override of series `s` whose recurrence instant equals `g0` exactly. -/
def e2 : Override :=
  ⟨"s", ⟨1000000, 0, "UTC"⟩, ⟨3000000, 0, "UTC"⟩, ⟨3003600, 0, "UTC"⟩, none⟩

/-- A plain (non-recurring) one-hour event inside the window, classified `DEV`. -/
def goodC : Component := ⟨"u1", "[DEV] standup", ⟨0, 0, "UTC"⟩, ⟨3600, 0, "UTC"⟩, none, []⟩

/-- A recurring event whose rule text the library cannot parse. -/
def badC : Component :=
  ⟨"u2", "broken", ⟨0, 0, "UTC"⟩, ⟨3600, 0, "UTC"⟩, some (.malformed "FREQ=BOGUS"), []⟩

/-- Two generated instants of series `s0`. -/
def gen0 : List DT := [⟨10800, 3600, "Berlin"⟩, ⟨7200, 3600, "Berlin"⟩]

/-- An exclusion tagged with a zone offset (7200 s) different from the series
zone (3600 s); after the wall-clock-preserving re-tag its instant is 10800. -/
def ex0 : DT := ⟨7200, 7200, "Foo"⟩

/-- An exclusion tagged with a zone of the same offset as the series zone but
a different label: re-tagging does not move its instant (7200). -/
def exEq : DT := ⟨7200, 3600, "OtherLabelSameOffset"⟩

/-- The state after inserting one occurrence titled `[Work] a`. -/
def st1 : AggState := add_event cfg0 emptyState dt0 3600 "[Work] a"

/-- The `Work` bucket of `st1`, spelled out. -/
def b1 : Bucket := ⟨3600, [⟨dt0, 3600, "[Work] a", "Work"⟩]⟩

/-! ## Lemmas about lowercasing and the sentinel key -/

theorem pyLowerChar_underscore {c : Char} (h : pyLowerChar c = '_') : c = '_' := by
  unfold pyLowerChar at h
  split at h
  all_goals first
    | exact absurd h (by decide)
    | exact h

theorem pyFilterAlnum_all (s : String) :
    (pyFilterAlnum s).data.all Char.isAlphanum = true := by
  show (s.data.filter Char.isAlphanum).all Char.isAlphanum = true
  rw [List.all_eq_true]
  intro c hc
  exact List.of_mem_filter hc

/-- No all-alphanumeric string lowercases to the lowercased sentinel (whose
first character is an underscore, which no alphanumeric character maps to). -/
theorem pyLower_ne_ignored {s : String} (h : s.data.all Char.isAlphanum = true) :
    pyLower s ≠ pyLower CATEGORY_IGNORED := by
  intro he
  have hd : s.data.map pyLowerChar = CATEGORY_IGNORED.data.map pyLowerChar := by
    have h2 := congrArg String.data he
    exact h2
  have hr : (CATEGORY_IGNORED.data.map pyLowerChar).head? = some '_' := by decide
  cases hs : s.data with
  | nil =>
    rw [hs] at hd
    rw [← hd] at hr
    simp at hr
  | cons c t =>
    rw [hs] at hd
    have hhead : pyLowerChar c = '_' := by
      have h3 := congrArg List.head? hd
      rw [hr] at h3
      simpa using h3
    have hc : c = '_' := pyLowerChar_underscore hhead
    rw [hs, hc] at h
    rw [List.all_eq_true] at h
    exact absurd (h '_' (List.mem_cons_self _ _)) (by decide)

/-! ## Lemmas about the bucket map -/

theorem updateAssoc_keys (bs : List (String × Bucket)) (k : String) (d : Int) (ev : Ev) :
    keysOf (updateAssoc bs k d ev) = keysOf bs := by
  induction bs with
  | nil => rfl
  | cons p bs ih =>
    obtain ⟨k', b⟩ := p
    unfold updateAssoc
    split
    · simp [keysOf]
    · simpa [keysOf] using ih

theorem updateAssoc_numSum (bs : List (String × Bucket)) (k : String) (d : Int) (ev : Ev)
    (h : bs.any (fun p => p.1 == k) = true) :
    ((updateAssoc bs k d ev).map (fun p => p.2.events.length)).sum
      = (bs.map (fun p => p.2.events.length)).sum + 1 := by
  induction bs with
  | nil => simp at h
  | cons p bs ih =>
    obtain ⟨k', b⟩ := p
    unfold updateAssoc
    by_cases hk : k' = k
    · rw [if_pos hk]
      simp
      omega
    · rw [if_neg hk]
      have h' : bs.any (fun p => p.1 == k) = true := by
        simp only [List.any_cons] at h
        rcases Bool.or_eq_true_iff.mp h with h1 | h1
        · exact absurd (by simpa using h1) hk
        · exact h1
      simp only [List.map_cons, List.sum_cons, ih h']
      omega

theorem updateAssoc_lookupTotal (bs : List (String × Bucket)) (k : String) (d : Int) (ev : Ev)
    (h : bs.any (fun p => p.1 == k) = true) :
    lookupTotal (updateAssoc bs k d ev) k = lookupTotal bs k + d := by
  induction bs with
  | nil => simp at h
  | cons p bs ih =>
    obtain ⟨k', b⟩ := p
    unfold updateAssoc
    by_cases hk : k' = k
    · rw [if_pos hk]
      unfold lookupTotal
      simp [List.find?, hk]
    · rw [if_neg hk]
      have h' : bs.any (fun p => p.1 == k) = true := by
        simp only [List.any_cons] at h
        rcases Bool.or_eq_true_iff.mp h with h1 | h1
        · exact absurd (by simpa using h1) hk
        · exact h1
      unfold lookupTotal
      simp only [List.find?]
      have hbeq : (k' == k) = false := by simpa using hk
      rw [hbeq]
      exact ih h'

theorem sumNonIgnored_cons (p : String × Bucket) (bs : List (String × Bucket)) :
    sumNonIgnored (p :: bs)
      = (if p.1 = CATEGORY_IGNORED then 0 else p.2.total) + sumNonIgnored bs := by
  by_cases h : p.1 = CATEGORY_IGNORED
  · simp [sumNonIgnored, List.filter_cons, h]
  · simp [sumNonIgnored, List.filter_cons, h]

theorem sumNonIgnored_append (bs1 bs2 : List (String × Bucket)) :
    sumNonIgnored (bs1 ++ bs2) = sumNonIgnored bs1 + sumNonIgnored bs2 := by
  simp [sumNonIgnored, List.filter_append]

theorem updateAssoc_sumNonIgnored_ne (bs : List (String × Bucket)) (k : String) (d : Int)
    (ev : Ev) (hk : k ≠ CATEGORY_IGNORED) (h : bs.any (fun p => p.1 == k) = true) :
    sumNonIgnored (updateAssoc bs k d ev) = sumNonIgnored bs + d := by
  induction bs with
  | nil => simp at h
  | cons p bs ih =>
    obtain ⟨k', b⟩ := p
    unfold updateAssoc
    by_cases hkk : k' = k
    · rw [if_pos hkk]
      subst hkk
      rw [sumNonIgnored_cons, sumNonIgnored_cons]
      dsimp only
      rw [if_neg hk, if_neg hk]
      omega
    · rw [if_neg hkk]
      have h' : bs.any (fun p => p.1 == k) = true := by
        simp only [List.any_cons] at h
        rcases Bool.or_eq_true_iff.mp h with h1 | h1
        · exact absurd (by simpa using h1) hkk
        · exact h1
      rw [sumNonIgnored_cons, sumNonIgnored_cons, ih h']
      omega

theorem updateAssoc_sumNonIgnored_ign (bs : List (String × Bucket)) (d : Int) (ev : Ev) :
    sumNonIgnored (updateAssoc bs CATEGORY_IGNORED d ev) = sumNonIgnored bs := by
  induction bs with
  | nil => rfl
  | cons p bs ih =>
    obtain ⟨k', b⟩ := p
    unfold updateAssoc
    by_cases hkk : k' = CATEGORY_IGNORED
    · rw [if_pos hkk]
      subst hkk
      rw [sumNonIgnored_cons, sumNonIgnored_cons]
      dsimp only
      rw [if_pos rfl, if_pos rfl]
    · rw [if_neg hkk]
      rw [sumNonIgnored_cons, sumNonIgnored_cons, ih]

theorem sumNonIgnored_append_ne (bs : List (String × Bucket)) (k : String) (d : Int)
    (evs : List Ev) (hk : k ≠ CATEGORY_IGNORED) :
    sumNonIgnored (bs ++ [(k, ⟨d, evs⟩)]) = sumNonIgnored bs + d := by
  rw [sumNonIgnored_append, sumNonIgnored_cons]
  dsimp only
  rw [if_neg hk]
  show sumNonIgnored bs + (d + sumNonIgnored []) = sumNonIgnored bs + d
  simp [sumNonIgnored]

theorem sumNonIgnored_append_ign (bs : List (String × Bucket)) (d : Int) (evs : List Ev) :
    sumNonIgnored (bs ++ [(CATEGORY_IGNORED, ⟨d, evs⟩)]) = sumNonIgnored bs := by
  rw [sumNonIgnored_append, sumNonIgnored_cons]
  dsimp only
  rw [if_pos rfl]
  show sumNonIgnored bs + (0 + sumNonIgnored []) = sumNonIgnored bs
  simp [sumNonIgnored]

/-! ## Lemmas about the matching scan -/

/-- What a successful scan means: the accepted candidate satisfies the match
condition, it is the *first* pool entry that does, and the returned pool is
the old pool with exactly that entry removed. -/
theorem findMatch_eq_some {uid : String} {g : DT} {pool : List Override}
    {e : Override} {rest : List Override}
    (h : findMatch uid g pool = some (e, rest)) :
    matchesB uid g e = true ∧
    ∃ l1 l2, pool = l1 ++ e :: l2 ∧ rest = l1 ++ l2 ∧
      ∀ x ∈ l1, matchesB uid g x = false := by
  induction pool generalizing rest with
  | nil => simp [findMatch] at h
  | cons a pool ih =>
    rw [findMatch] at h
    by_cases ha : matchesB uid g a = true
    · rw [if_pos ha] at h
      obtain ⟨he, hr⟩ : a = e ∧ pool = rest := by
        simpa using h
      subst he; subst hr
      exact ⟨ha, [], pool, rfl, rfl, by intro x hx; simp at hx⟩
    · rw [if_neg ha] at h
      cases hf : findMatch uid g pool with
      | none => rw [hf] at h; exact absurd h (by simp)
      | some pr =>
        obtain ⟨f, r⟩ := pr
        rw [hf] at h
        obtain ⟨he, hr⟩ : f = e ∧ a :: r = rest := by
          simpa using h
        subst he; subst hr
        obtain ⟨hm, l1, l2, hp, hr2, hl⟩ := ih hf
        refine ⟨hm, a :: l1, l2, by rw [hp]; rfl, by rw [hr2]; rfl, ?_⟩
        intro x hx
        rcases List.mem_cons.mp hx with h1 | h1
        · subst h1
          exact Bool.not_eq_true _ ▸ (by simpa using ha)
        · exact hl x h1

/-- A successful scan removes exactly the accepted record: the old pool is a
permutation of the accepted record plus the returned pool. -/
theorem findMatch_perm {uid : String} {g : DT} {pool : List Override}
    {e : Override} {rest : List Override}
    (h : findMatch uid g pool = some (e, rest)) : pool.Perm (e :: rest) := by
  obtain ⟨-, l1, l2, hp, hr, -⟩ := findMatch_eq_some h
  rw [hp, hr]
  exact List.perm_middle

/-- An accepted candidate always satisfies the date-level comparison: an exact
instant match forces equal reference-zone dates. -/
theorem dateMatch_of_matches {uid : String} {g : DT} {e : Override}
    (h : matchesB uid g e = true) : dateMatchB g e = true := by
  unfold matchesB at h
  rcases Bool.and_eq_true_iff.mp h with ⟨-, h2⟩
  rcases Bool.or_eq_true_iff.mp h2 with h3 | h3
  · unfold exactMatchB at h3
    have : g.utc = e.recurrenceId.utc := by simpa using h3
    unfold dateMatchB utcDate
    simp [this]
  · exact h3

/-! ## Lemmas about the reconciler -/

/-- Exactly-once accounting: the records consumed by a reconciliation plus the
records still in the pool are a permutation of the original pool. -/
theorem reconcile_perm (s : Series) (pool : List Override) (gs : List DT) :
    ((reconcile s pool gs).consumed ++ (reconcile s pool gs).pool).Perm pool := by
  induction gs generalizing pool with
  | nil => simp [reconcile]
  | cons g gs ih =>
    rw [reconcile]
    cases hf : findMatch s.uid g pool with
    | none => simpa using ih pool
    | some pr =>
      obtain ⟨e, rest⟩ := pr
      dsimp only
      have h1 := ih rest
      have h2 : (e :: ((reconcile s rest gs).consumed ++ (reconcile s rest gs).pool)).Perm
          (e :: rest) := h1.cons e
      exact List.Perm.trans (by simpa using h2) (findMatch_perm hf).symm

/-- One resolved occurrence per generated instant. -/
theorem reconcile_length (s : Series) (pool : List Override) (gs : List DT) :
    (reconcile s pool gs).resolved.length = gs.length := by
  induction gs generalizing pool with
  | nil => simp [reconcile]
  | cons g gs ih =>
    rw [reconcile]
    cases hf : findMatch s.uid g pool with
    | none => simpa using ih pool
    | some pr =>
      obtain ⟨e, rest⟩ := pr
      simpa using ih rest

/-- Every resolved occurrence is built either from a consumed override (its
start, its duration, its or the default summary) or from a generated instant
with the nominal duration and default summary. -/
theorem reconcile_forms (s : Series) (pool : List Override) (gs : List DT) :
    ∀ r ∈ (reconcile s pool gs).resolved,
      (∃ e ∈ (reconcile s pool gs).consumed, r = ofOverride s e) ∨
      ∃ g ∈ gs, r = plainOcc s g := by
  induction gs generalizing pool with
  | nil => simp [reconcile]
  | cons g gs ih =>
    rw [reconcile]
    cases hf : findMatch s.uid g pool with
    | none =>
      dsimp only
      intro r hr
      rcases List.mem_cons.mp hr with h1 | h1
      · exact Or.inr ⟨g, List.mem_cons_self _ _, h1⟩
      · rcases ih pool r h1 with ⟨e, he, hre⟩ | ⟨g', hg', hrg⟩
        · exact Or.inl ⟨e, he, hre⟩
        · exact Or.inr ⟨g', List.mem_cons_of_mem _ hg', hrg⟩
    | some pr =>
      obtain ⟨e0, rest⟩ := pr
      dsimp only
      intro r hr
      rcases List.mem_cons.mp hr with h1 | h1
      · exact Or.inl ⟨e0, List.mem_cons_self _ _, h1⟩
      · rcases ih rest r h1 with ⟨e, he, hre⟩ | ⟨g', hg', hrg⟩
        · exact Or.inl ⟨e, List.mem_cons_of_mem _ he, hre⟩
        · exact Or.inr ⟨g', List.mem_cons_of_mem _ hg', hrg⟩

/-- The `relaxed matching` log fires once per consumed override — including
every exactly-matched one. -/
theorem reconcile_relaxedCount (s : Series) (pool : List Override) (gs : List DT) :
    (reconcile s pool gs).relaxedCount = (reconcile s pool gs).consumed.length := by
  induction gs generalizing pool with
  | nil => simp [reconcile]
  | cons g gs ih =>
    rw [reconcile]
    cases hf : findMatch s.uid g pool with
    | none => simpa using ih pool
    | some pr =>
      obtain ⟨e, rest⟩ := pr
      have hd : dateMatchB g e = true := dateMatch_of_matches (findMatch_eq_some hf).1
      simp [hd, ih rest]
      omega

/-! ## Lemmas about the whole run -/

theorem processComponent_malformed (cfg : Config) (pool : List Override) (st : AggState)
    (c : Component) (h : isMalformed c = true) :
    ∃ msg, processComponent cfg pool st c = .error msg := by
  unfold isMalformed at h
  unfold processComponent
  cases hr : c.rrule with
  | none => rw [hr] at h; exact absurd h (by simp)
  | some rt =>
    cases rt with
    | malformed txt => exact ⟨txt, rfl⟩
    | wellFormed occs => rw [hr] at h; exact absurd h (by simp)

theorem processComponent_subperm (cfg : Config) (pool : List Override) (st : AggState)
    (c : Component) (p' : List Override) (st' : AggState)
    (h : processComponent cfg pool st c = .ok (p', st')) : p'.Subperm pool := by
  unfold processComponent at h
  cases hr : c.rrule with
  | none =>
    rw [hr] at h
    obtain ⟨hp, -⟩ : pool = p' ∧ _ := by simpa using h
    exact hp ▸ List.Subperm.refl _
  | some rt =>
    cases rt with
    | malformed txt => rw [hr] at h; exact absurd h (by simp)
    | wellFormed occs =>
      rw [hr] at h
      have hp : (reconcile (seriesOf c) pool
          (expandSeries occs c.exdates c.dtstart)).pool = p' := by
        have h2 : ((reconcile (seriesOf c) pool (expandSeries occs c.exdates c.dtstart)).pool,
            (reconcile (seriesOf c) pool (expandSeries occs c.exdates c.dtstart)).resolved.foldl
              (fun acc o => add_event cfg acc o.start o.duration o.summary) st) = (p', st') := by
          simpa using h
        exact congrArg Prod.fst h2
      have hperm := reconcile_perm (seriesOf c) pool (expandSeries occs c.exdates c.dtstart)
      have hsub := (List.sublist_append_right
        (reconcile (seriesOf c) pool (expandSeries occs c.exdates c.dtstart)).consumed
        (reconcile (seriesOf c) pool (expandSeries occs c.exdates c.dtstart)).pool).subperm
      exact hp ▸ hsub.trans hperm.subperm

theorem runAll_subperm (cfg : Config) (cs : List Component) :
    ∀ (pool : List Override) (st : AggState) (p' : List Override),
      poolAfter (runAll cfg cs pool st) = some p' → p'.Subperm pool := by
  induction cs with
  | nil =>
    intro pool st p' h
    have hp : pool = p' := by simpa [runAll, poolAfter, Except.toOption] using h
    exact hp ▸ List.Subperm.refl _
  | cons c cs ih =>
    intro pool st p' h
    rw [runAll] at h
    cases hp : processComponent cfg pool st c with
    | error msg => rw [hp] at h; simp [poolAfter, Except.toOption] at h
    | ok pr =>
      obtain ⟨p1, st1⟩ := pr
      rw [hp] at h
      exact (ih p1 st1 p' h).trans (processComponent_subperm cfg pool st c p1 st1 hp)

/-! ## Lemmas about `add_event` and the state invariant -/

theorem chooseCategory_ignored (bs : List (String × Bucket))
    (hkeys : ∀ k ∈ keysOf bs, k = CATEGORY_IGNORED ∨ k.data.all Char.isAlphanum = true) :
    chooseCategory bs CATEGORY_IGNORED = CATEGORY_IGNORED := by
  unfold chooseCategory
  cases hf : bs.find? (fun p => pyLower p.1 == pyLower CATEGORY_IGNORED) with
  | none => rfl
  | some p =>
    have hmem : p ∈ bs := List.mem_of_find?_eq_some hf
    have hpl : pyLower p.1 = pyLower CATEGORY_IGNORED := by
      simpa using List.find?_some hf
    rcases hkeys p.1 (by unfold keysOf; exact List.mem_map_of_mem _ hmem) with h1 | h1
    · exact h1
    · exact absurd hpl (pyLower_ne_ignored h1)

theorem add_event_StateInv (cfg : Config) (st : AggState) (dt : DT) (dur : Int)
    (s0 : String) (h : StateInv st) : StateInv (add_event cfg st dt dur s0) := by
  obtain ⟨hkeys, hsum⟩ := h
  unfold add_event
  by_cases hw : cfg.dstart ≤ localDate dt ∧ localDate dt ≤ cfg.dend
  · rw [if_pos hw]
    cases hm : categoryMatch (pyTake s0 200) with
    | none =>
      have hcat : classifiedCat s0 = CATEGORY_IGNORED := by
        unfold classifiedCat; rw [hm]
      have hch : chooseCategory st.buckets (classifiedCat s0) = CATEGORY_IGNORED := by
        rw [hcat]; exact chooseCategory_ignored st.buckets hkeys
      rw [hch]
      refine ⟨?_, ?_⟩
      · dsimp only
        intro k hk
        unfold insertEvent at hk
        by_cases hany : st.buckets.any (fun p => p.1 == CATEGORY_IGNORED) = true
        · rw [if_pos hany, updateAssoc_keys] at hk
          exact hkeys k hk
        · rw [if_neg hany] at hk
          unfold keysOf at hk
          rw [List.map_append] at hk
          rcases List.mem_append.mp hk with h1 | h1
          · exact hkeys k h1
          · simp at h1; subst h1; exact Or.inl rfl
      · dsimp only
        unfold insertEvent
        by_cases hany : st.buckets.any (fun p => p.1 == CATEGORY_IGNORED) = true
        · rw [if_pos hany, updateAssoc_sumNonIgnored_ign]
          simpa using hsum
        · rw [if_neg hany, sumNonIgnored_append_ign]
          simpa using hsum
    | some mm =>
      have hcat : classifiedCat s0 = pyFilterAlnum mm := by
        unfold classifiedCat; rw [hm]
      have halnum : (classifiedCat s0).data.all Char.isAlphanum = true := by
        rw [hcat]; exact pyFilterAlnum_all mm
      have hcne : classifiedCat s0 ≠ CATEGORY_IGNORED := by
        intro hEq
        rw [hEq] at halnum
        exact absurd halnum (by decide)
      unfold chooseCategory
      cases hf : st.buckets.find? (fun p => pyLower p.1 == pyLower (classifiedCat s0)) with
      | some p =>
        have hmem : p ∈ st.buckets := List.mem_of_find?_eq_some hf
        have hpl : pyLower p.1 = pyLower (classifiedCat s0) := by
          simpa using List.find?_some hf
        have hpne : p.1 ≠ CATEGORY_IGNORED := by
          intro hEq
          apply pyLower_ne_ignored halnum
          rw [← hpl, hEq]
        have hany : st.buckets.any (fun q => q.1 == p.1) = true := by
          rw [List.any_eq_true]
          exact ⟨p, hmem, by simp⟩
        refine ⟨?_, ?_⟩
        · dsimp only
          intro k hk
          unfold insertEvent at hk
          rw [if_pos hany, updateAssoc_keys] at hk
          exact hkeys k hk
        · dsimp only
          unfold insertEvent
          rw [if_pos hany, updateAssoc_sumNonIgnored_ne _ _ _ _ hpne hany]
          simp [hsum]
      | none =>
        have hnone := List.find?_eq_none.mp hf
        have hany : st.buckets.any (fun q => q.1 == classifiedCat s0) = false := by
          rw [List.any_eq_false]
          intro q hq hqq
          apply hnone q hq
          have hq1 : q.1 = classifiedCat s0 := by simpa using hqq
          simp [hq1]
        refine ⟨?_, ?_⟩
        · dsimp only
          intro k hk
          unfold insertEvent at hk
          rw [if_neg (by simp [hany])] at hk
          unfold keysOf at hk
          rw [List.map_append] at hk
          rcases List.mem_append.mp hk with h1 | h1
          · exact hkeys k h1
          · simp at h1; subst h1; exact Or.inr halnum
        · dsimp only
          unfold insertEvent
          rw [if_neg (by simp [hany]), sumNonIgnored_append_ne _ _ _ _ hcne]
          simp [hsum]
  · rw [if_neg hw]
    exact ⟨hkeys, hsum⟩

theorem runInserts_StateInv (cfg : Config) (items : List (DT × Int × String)) :
    StateInv (runInserts cfg items) := by
  have H : ∀ st, StateInv st →
      StateInv (items.foldl (fun st it => add_event cfg st it.1 it.2.1 it.2.2) st) := by
    induction items with
    | nil => intro st h; exact h
    | cons it items ih =>
      intro st h
      exact ih _ (add_event_StateInv cfg st it.1 it.2.1 it.2.2 h)
  refine H emptyState ⟨?_, rfl⟩
  intro k hk
  simp [keysOf, emptyState] at hk

theorem insertEvent_numSum (bs : List (String × Bucket)) (k : String) (d : Int) (ev : Ev) :
    ((insertEvent bs k d ev).map (fun p => p.2.events.length)).sum
      = (bs.map (fun p => p.2.events.length)).sum + 1 := by
  unfold insertEvent
  split
  case isTrue h => exact updateAssoc_numSum bs k d ev h
  case isFalse h => simp

/-! ## The claims -/

/-- C1, amended: for each generated instant the matching loop scans the pool
in order and consumes the *first* candidate of the same series that matches
exactly *or* by reference-zone date; an exact match elsewhere in the pool is
not preferred over an earlier date-only match.  (The claim as stated — relaxed
matching applied only when no exact match exists among the remaining
candidates — is refuted by `c1_counterexample`.) -/
theorem c1_first_match_in_pool_order (s : Series) (g : DT) (gs : List DT)
    (pool rest : List Override) (e : Override)
    (h : findMatch s.uid g pool = some (e, rest)) :
    (reconcile s pool (g :: gs)).consumed.head? = some e ∧
    matchesB s.uid g e = true ∧
    ∃ l1 l2, pool = l1 ++ e :: l2 ∧ rest = l1 ++ l2 ∧
      ∀ x ∈ l1, matchesB s.uid g x = false := by
  obtain ⟨hm, l1, l2, hp, hr, hl⟩ := findMatch_eq_some h
  refine ⟨?_, hm, l1, l2, hp, hr, hl⟩
  rw [reconcile, h]
  rfl

/-- C1, counterexample to the claim as stated: `e2` matches `g0` exactly and
is unconsumed, yet the date-only candidate `e1`, earlier in pool order, is the
record consumed. -/
theorem c1_counterexample :
    exactMatchB g0 e2 = true ∧ exactMatchB g0 e1 = false ∧
    dateMatchB g0 e1 = true ∧
    (reconcile s0 [e1, e2] [g0]).consumed = [e1] ∧
    (reconcile s0 [e1, e2] [g0]).pool = [e2] := by decide

/-- C1, witness: the amended theorem applied to the concrete pool
`[e1, e2]` and instant `g0`. -/
theorem c1_witness :
    (reconcile s0 [e1, e2] [g0]).consumed.head? = some e1 ∧
    matchesB s0.uid g0 e1 = true ∧
    ∃ l1 l2, [e1, e2] = l1 ++ e1 :: l2 ∧ [e2] = l1 ++ l2 ∧
      ∀ x ∈ l1, matchesB s0.uid g0 x = false :=
  c1_first_match_in_pool_order s0 g0 [] [e1, e2] [e2] e1 (by decide)

/-- C2: exactly-once consumption.  Per series, the consumed records plus the
remaining pool are a permutation of the incoming pool (each record is either
still present or was consumed — and removed — exactly once, and each
consumption produces exactly one resolved occurrence); across a whole
completed run, the surviving pool is a sub-permutation of the initial one. -/
theorem c2_override_consumed_once :
    (∀ (s : Series) (pool : List Override) (gs : List DT),
        ((reconcile s pool gs).consumed ++ (reconcile s pool gs).pool).Perm pool) ∧
    (∀ (cfg : Config) (cs : List Component) (pool : List Override) (st : AggState)
        (p' : List Override),
        poolAfter (runAll cfg cs pool st) = some p' → p'.Subperm pool) :=
  ⟨reconcile_perm, fun cfg cs pool st p' h => runAll_subperm cfg cs pool st p' h⟩

/-- C2, witness: the accounting at the concrete pool `[e1, e2]`, and the
whole-run part at a one-component calendar that leaves `[e1]` untouched. -/
theorem c2_witness :
    ((reconcile s0 [e1, e2] [g0]).consumed ++ (reconcile s0 [e1, e2] [g0]).pool).Perm
      [e1, e2] ∧
    List.Subperm [e1] [e1] :=
  ⟨c2_override_consumed_once.1 s0 [e1, e2] [g0],
   c2_override_consumed_once.2 cfg0 [goodC] [e1] emptyState [e1] (by decide)⟩

/-- C3, amended: an unparsable recurrence rule raises an error the script
never catches, so it aborts the *entire* run — no later series is processed
and no report is produced at all.  (The claim as stated — only the offending
series is aborted and the report reflects every other series — is refuted by
`c3_counterexample`.) -/
theorem c3_malformed_rule_aborts_run (cfg : Config) (cs : List Component)
    (pool : List Override) (st : AggState) (h : ∃ c ∈ cs, isMalformed c = true) :
    reportKeys (runAll cfg cs pool st) = none := by
  induction cs generalizing pool st with
  | nil => obtain ⟨c, hc, -⟩ := h; simp at hc
  | cons c0 cs ih =>
    obtain ⟨c, hc, hm⟩ := h
    rw [runAll]
    rcases List.mem_cons.mp hc with h1 | h1
    · subst h1
      obtain ⟨msg, hmsg⟩ := processComponent_malformed cfg pool st c hm
      rw [hmsg]
      rfl
    · cases hp : processComponent cfg pool st c0 with
      | error msg => rfl
      | ok pr =>
        obtain ⟨p1, st1⟩ := pr
        exact ih p1 st1 ⟨c, h1, hm⟩

/-- C3, counterexample to the claim as stated: with a malformed first series
the whole run dies with the parse error and produces no report, although the
second (healthy) series alone would have produced a `DEV` bucket. -/
theorem c3_counterexample :
    isMalformed badC = true ∧
    errAfter (runAll cfg0 [badC, goodC] [] emptyState) = some "FREQ=BOGUS" ∧
    reportKeys (runAll cfg0 [badC, goodC] [] emptyState) = none ∧
    reportKeys (runAll cfg0 [goodC] [] emptyState) = some ["DEV"] := by decide

/-- C3, witness: the amended theorem applied to the concrete calendar
`[badC, goodC]`. -/
theorem c3_witness : reportKeys (runAll cfg0 [badC, goodC] [] emptyState) = none :=
  c3_malformed_rule_aborts_run cfg0 [badC, goodC] [] emptyState
    ⟨badC, List.mem_cons_self _ _, rfl⟩

/-- C4: exclusion correctness.  For an exclusion entry `e`, no instant of the
expander's output equals the instant of `e` normalized (wall-clock preserved)
to the series' own zone; and when `e` carries the same *offset* as the series
zone — under any zone label, i.e. a "different but equivalent offset" tag —
the normalization does not move it, so no output instant equals `e` itself. -/
theorem c4_exclusion_correct (gen exdates : List DT) (seriesStart e : DT)
    (he : e ∈ exdates)
    (hg : ∃ g ∈ gen, g.utc = (tzReplace e seriesStart).utc) :
    (∀ g ∈ expandSeries gen exdates seriesStart,
        g.utc ≠ (tzReplace e seriesStart).utc) ∧
    (e.offset = seriesStart.offset →
      ∀ g ∈ expandSeries gen exdates seriesStart, g.utc ≠ e.utc) := by
  have hmain : ∀ g ∈ expandSeries gen exdates seriesStart,
      g.utc ≠ (tzReplace e seriesStart).utc := by
    intro g hgf
    simp only [expandSeries] at hgf
    obtain ⟨-, hpred⟩ := List.mem_filter.mp hgf
    intro hEq
    have hany : (exdates.map (fun x => tzReplace x seriesStart)).any
        (fun x => x.utc == g.utc) = false := by
      simpa using hpred
    rw [List.any_eq_false] at hany
    exact hany (tzReplace e seriesStart) (List.mem_map_of_mem _ he) (by simp [hEq])
  refine ⟨hmain, fun hoff g hgf => ?_⟩
  have hfix : (tzReplace e seriesStart).utc = e.utc := by
    unfold tzReplace
    dsimp only
    omega
  rw [← hfix]
  exact hmain g hgf

/-- C4, witness: the exclusion `exEq` — tagged with a different zone label of
the same offset as the series zone — applied to the concrete sequence
`gen0`. -/
theorem c4_witness :
    (∀ g ∈ expandSeries gen0 [exEq] s0.dtstart,
        g.utc ≠ (tzReplace exEq s0.dtstart).utc) ∧
    (exEq.offset = s0.dtstart.offset →
      ∀ g ∈ expandSeries gen0 [exEq] s0.dtstart, g.utc ≠ exEq.utc) :=
  c4_exclusion_correct gen0 [exEq] s0.dtstart exEq (by decide)
    ⟨⟨7200, 3600, "Berlin"⟩, by decide, by decide⟩

/-- C5: conservation.  Each generated instant yields exactly one resolved
occurrence — the count of resolved occurrences equals the count of instants —
and every resolved occurrence is built either from a consumed override (its
actual start, actual duration, and its summary or the series default) or from
a generated instant with the nominal duration and default summary. -/
theorem c5_conservation (s : Series) (pool : List Override) (gs : List DT) :
    (reconcile s pool gs).resolved.length = gs.length ∧
    ∀ r ∈ (reconcile s pool gs).resolved,
      (∃ e ∈ (reconcile s pool gs).consumed, r = ofOverride s e) ∨
      ∃ g ∈ gs, r = plainOcc s g :=
  ⟨reconcile_length s pool gs, reconcile_forms s pool gs⟩

/-- C5, witness: the conservation theorem applied to one instant and an empty
pool, whose single resolved occurrence is the plain one. -/
theorem c5_witness :
    (reconcile s0 [] [g0]).resolved.length = [g0].length ∧
    ((∃ e ∈ (reconcile s0 [] [g0]).consumed, plainOcc s0 g0 = ofOverride s0 e) ∨
      ∃ g ∈ [g0], plainOcc s0 g0 = plainOcc s0 g) :=
  ⟨(c5_conservation s0 [] [g0]).1,
   (c5_conservation s0 [] [g0]).2 (plainOcc s0 g0) (by decide)⟩

/-- C6: after any sequence of insertions starting from the fresh state, the
grand total `total_duration` reported in the header equals the sum of the
totals of all buckets other than the uncategorized sentinel bucket; the
sentinel bucket is kept but never contributes. -/
theorem c6_grand_total (cfg : Config) (items : List (DT × Int × String)) :
    sumNonIgnored (runInserts cfg items).buckets = (runInserts cfg items).totalDuration :=
  (runInserts_StateInv cfg items).2

/-- C7: the range filter keeps an occurrence — stores exactly one new event —
precisely when `windowStart ≤ d ≤ windowEnd` (both ends inclusive), where `d`
is the date of the occurrence's start *in its own zone* (`localDate`), and
stores nothing otherwise. -/
theorem c7_window_inclusive (cfg : Config) (st : AggState) (dt : DT) (dur : Int)
    (s0 : String) :
    numEvents (add_event cfg st dt dur s0) =
      numEvents st +
        (if cfg.dstart ≤ localDate dt ∧ localDate dt ≤ cfg.dend then 1 else 0) := by
  unfold add_event
  by_cases hw : cfg.dstart ≤ localDate dt ∧ localDate dt ≤ cfg.dend
  · rw [if_pos hw, if_pos hw]
    unfold numEvents
    dsimp only
    exact insertEvent_numSum st.buckets _ dur _
  · rw [if_neg hw, if_neg hw]
    simp

/-- C8: bucket keys are folded case-insensitively onto the first existing key
whose lowercasing matches the incoming classification: the key set is
unchanged (no second bucket for a new casing) and that key's total grows by
the inserted duration. -/
theorem c8_case_insensitive_fold (cfg : Config) (st : AggState) (dt : DT) (dur : Int)
    (s0 : String) (k : String) (b : Bucket)
    (hw : cfg.dstart ≤ localDate dt ∧ localDate dt ≤ cfg.dend)
    (hf : st.buckets.find? (fun p => pyLower p.1 == pyLower (classifiedCat s0))
      = some (k, b)) :
    keysOf (add_event cfg st dt dur s0).buckets = keysOf st.buckets ∧
    lookupTotal (add_event cfg st dt dur s0).buckets k
      = lookupTotal st.buckets k + dur := by
  have hch : chooseCategory st.buckets (classifiedCat s0) = k := by
    unfold chooseCategory; rw [hf]
  have hmem : (k, b) ∈ st.buckets := List.mem_of_find?_eq_some hf
  have hany : st.buckets.any (fun q => q.1 == k) = true := by
    rw [List.any_eq_true]
    exact ⟨(k, b), hmem, by simp⟩
  unfold add_event
  rw [if_pos hw, hch]
  dsimp only
  unfold insertEvent
  rw [if_pos hany]
  exact ⟨updateAssoc_keys st.buckets k dur _, updateAssoc_lookupTotal st.buckets k dur _ hany⟩

/-- C8, witness: inserting `[Work] a` and then `[WORK] b` leaves exactly the
one bucket keyed `Work` carrying the combined duration. -/
theorem c8_witness :
    keysOf (add_event cfg0 st1 dt0 1800 "[WORK] b").buckets = keysOf st1.buckets ∧
    lookupTotal (add_event cfg0 st1 dt0 1800 "[WORK] b").buckets "Work"
      = lookupTotal st1.buckets "Work" + 1800 :=
  c8_case_insensitive_fold cfg0 st1 dt0 1800 "[WORK] b" "Work" b1 (by decide) (by decide)

/-- C9, amended: the `relaxed matching` log record is emitted once per
*consumed* override — the date-level comparison that triggers it also holds
for every exact match, so exactly-matched overrides are logged as relaxed
too.  (The claim as stated — an exact match produces no relaxed-match
diagnostic — is refuted by `c9_counterexample`.) -/
theorem c9_relaxed_logged_per_consumption (s : Series) (pool : List Override)
    (gs : List DT) :
    (reconcile s pool gs).relaxedCount = (reconcile s pool gs).consumed.length :=
  reconcile_relaxedCount s pool gs

/-- C9, counterexample to the claim as stated: `e2` matches `g0` exactly and
is consumed, yet one relaxed-match log record is emitted. -/
theorem c9_counterexample :
    (reconcile s0 [e2] [g0]).consumed = [e2] ∧ exactMatchB g0 e2 = true ∧
    (reconcile s0 [e2] [g0]).relaxedCount = 1 := by decide

/-- C10: a title whose classified text has no alphanumeric characters (here
`[] planning`, whose match is `[]`) is bucketed under the empty-string key,
which is a bucket distinct from the uncategorized sentinel, and its duration
*is* counted in the grand total — while a later unclassified title goes to the
sentinel bucket and adds nothing to the total. -/
theorem c10_empty_category_counted :
    keysOf (add_event cfg0 emptyState dt0 5400 "[] planning").buckets = [""] ∧
    ("" : String) ≠ CATEGORY_IGNORED ∧
    (add_event cfg0 emptyState dt0 5400 "[] planning").totalDuration = 5400 ∧
    keysOf (add_event cfg0 (add_event cfg0 emptyState dt0 5400 "[] planning") dt0 100
      "no category").buckets = ["", CATEGORY_IGNORED] ∧
    (add_event cfg0 (add_event cfg0 emptyState dt0 5400 "[] planning") dt0 100
      "no category").totalDuration = 5400 := by decide

end CTA
